import Mathlib

/-!
Verification of the core pipeline of `sec_final.py` (SEC 8-K product-filing
extractor).  Strings are modelled as `List Char`; Python string primitives
(`lower`, `find`, slicing, `strip`, `splitlines`, `split("  ")`, `zfill`) are
embedded as executable functions, and the regular expressions of
`extract_product_name` are embedded as deterministic scanners that follow the
backtracking behaviour of Python's `re` module on these particular patterns.
Character classes follow Python's definitions restricted to the basic
multilingual plane (`str.isspace`, `str.splitlines` boundaries, ASCII
`[A-Z]`, `[a-zA-Z0-9]`, ASCII case folding of `str.lower`).
-/

/-- Python `str.isspace` / regex `\s` character set (BMP). -/
def pySpaceChars : List Char :=
  [' ', '\t', '\n', '\r', '\x0b', '\x0c', '\x1c', '\x1d', '\x1e', '\x1f',
   '\x85', '\xa0', '\u1680', '\u2000', '\u2001', '\u2002', '\u2003', '\u2004',
   '\u2005', '\u2006', '\u2007', '\u2008', '\u2009', '\u200a', '\u2028',
   '\u2029', '\u202f', '\u205f', '\u3000']

/-- Python whitespace test (`str.isspace`, regex `\s`, ends trimmed by
`str.strip`). -/
def pyIsSpace (c : Char) : Bool := pySpaceChars.contains c

/-- Python `str.splitlines` line-boundary character set. -/
def lineBreakChars : List Char :=
  ['\n', '\r', '\x0b', '\x0c', '\x1c', '\x1d', '\x1e', '\x85', '\u2028', '\u2029']

/-- Python `str.splitlines` line-boundary test. -/
def isLineBreak (c : Char) : Bool := lineBreakChars.contains c

/-- ASCII uppercase letter, the class `[A-Z]` without `re.IGNORECASE`. -/
def isUpperA (c : Char) : Bool := 'A' ≤ c && c ≤ 'Z'

/-- ASCII letter, the class `[A-Z]` under `re.IGNORECASE`. -/
def isLetterA (c : Char) : Bool := ('A' ≤ c && c ≤ 'Z') || ('a' ≤ c && c ≤ 'z')

/-- ASCII alphanumeric, the class `[a-zA-Z0-9]`. -/
def isAlnumA (c : Char) : Bool :=
  ('A' ≤ c && c ≤ 'Z') || ('a' ≤ c && c ≤ 'z') || ('0' ≤ c && c ≤ '9')

/-- Python `str.lower` (ASCII case folding, as `Char.toLower`). -/
def lower (s : List Char) : List Char := s.map Char.toLower

/-- Python `str.find`: index of the first occurrence of `needle` in `hay`,
`none` for Python's `-1`.  Also decides the Python `in` operator. -/
def findSub (needle : List Char) : List Char → Option Nat
  | [] => if needle.isPrefixOf ([] : List Char) then some 0 else none
  | c :: t =>
    if needle.isPrefixOf (c :: t) then some 0
    else (findSub needle t).map (· + 1)

/-- Python slice `s[a:b]` for `0 ≤ a ≤ b` (clamped to the text bounds). -/
def pySlice (s : List Char) (a b : Nat) : List Char := (s.drop a).take (b - a)

/-- Python `str.strip` (both ends, Python whitespace). -/
def stripL (s : List Char) : List Char :=
  (((s.dropWhile pyIsSpace).reverse.dropWhile pyIsSpace)).reverse

/-- The configured keyword list `Config.PRODUCT_KEYWORDS` of `sec_final.py`. -/
def PRODUCT_KEYWORDS : List (List Char) :=
  ["new product".data, "launch".data, "announce".data, "introduce".data,
   "unveil".data, "release".data, "innovation".data, "technology".data]

/-- `Config.MAX_COMPANIES` of `sec_final.py`. -/
def MAX_COMPANIES : Nat := 5

/-- `Config.MAX_FILINGS_PER_COMPANY` of `sec_final.py`. -/
def MAX_FILINGS_PER_COMPANY : Nat := 5

/-- The keyword loop of `SECFilingExtractor.contains_product_info`
(`sec_final.py` lines 241-252): for each keyword in configured order, if it
occurs in the lowered text, return the context window
`text[max(0, i-100) : min(len(text), i+200)]` around the first occurrence
`i`, together with the keyword. -/
def containsLoop (text tl : List Char) : List (List Char) → Bool × List Char × List Char
  | [] => (false, [], [])
  | kw :: rest =>
    match findSub kw tl with
    | some ki => (true, pySlice text (ki - 100) (min text.length (ki + 200)), kw)
    | none => containsLoop text tl rest

/-- `SECFilingExtractor.contains_product_info` (`sec_final.py` lines 236-252). -/
def contains_product_info (text : List Char) : Bool × List Char × List Char :=
  containsLoop text (lower text) PRODUCT_KEYWORDS

/-- Split a list at its first quote character: the segment before it, and (when a quote
exists) the remainder after it.  Models the regex fragments `[^"]*"` and
`([^"]+)"`, whose greedy runs stop exactly at the next quote. -/
def takeUntilQuote : List Char → List Char × Option (List Char)
  | [] => ([], none)
  | c :: t =>
    if c = '"' then ([], some t)
    else
      let r := takeUntilQuote t
      (c :: r.1, r.2)

/-- One attempt of pattern 1 (`{kw}[^"]*"([^"]+)"`) at a fixed keyword
occurrence, given the text after the keyword: the regex needs a quote, a
non-empty quote-free group, and a closing quote; there is no other
backtracking choice, so a failed attempt moves the search to the next
keyword occurrence. -/
def pat1Attempt (after : List Char) : Option (List Char) :=
  match takeUntilQuote after with
  | (_, none) => none
  | (_, some r1) =>
    match takeUntilQuote r1 with
    | (_, none) => none
    | (g, some _) => if g.isEmpty then none else some g

/-- `re.search` scan for pattern 1: try every start position (in the lowered
context, mirroring `re.IGNORECASE`) at which the lowered keyword is a prefix,
left to right. -/
def pat1Go (kwL ctx : List Char) : List Char → Nat → Option (List Char)
  | [], i =>
    if kwL.isPrefixOf ([] : List Char) then pat1Attempt (ctx.drop (i + kwL.length))
    else none
  | c :: t, i =>
    if kwL.isPrefixOf (c :: t) then
      match pat1Attempt (ctx.drop (i + kwL.length)) with
      | some g => some g
      | none => pat1Go kwL ctx t (i + 1)
    else pat1Go kwL ctx t (i + 1)

/-- Pattern 1 of `extract_product_name` (`sec_final.py` lines 260-263),
returning the raw capture group. -/
def pat1Search (context keyword : List Char) : Option (List Char) :=
  pat1Go (lower keyword) context (lower context) 0

/-- The string `words_after` of `extract_product_name` (`sec_final.py` line
267): `context[context.lower().find(keyword) + len(keyword):].strip()`, with
Python's `find` returning `-1` when the (not lowered!) keyword is absent from
the lowered context. -/
def wordsAfterOf (context keyword : List Char) : List Char :=
  let ki : Int :=
    match findSub keyword (lower context) with
    | some i => (i : Int)
    | none => -1
  stripL (context.drop (ki + (keyword.length : Int)).toNat)

/-- The repetition `(?:\s+[A-Z][a-zA-Z0-9]*){0,n}` of pattern 2, matched
greedily: each step needs a non-empty whitespace run, an uppercase letter and
its maximal alphanumeric run; a failing step ends the repetition (nothing
follows the group, so the regex never backtracks into it). -/
def moreCaps : Nat → List Char → List Char
  | 0, _ => []
  | n + 1, l =>
    let ws := l.takeWhile pyIsSpace
    if ws.isEmpty then []
    else
      match l.dropWhile pyIsSpace with
      | [] => []
      | c :: t =>
        if isUpperA c then ws ++ c :: t.takeWhile isAlnumA ++ moreCaps n (t.dropWhile isAlnumA)
        else []

/-- `re.search` scan for pattern 2 (`([A-Z][a-zA-Z0-9]*(?:\s+[A-Z][a-zA-Z0-9]*){0,5})`,
no `re.IGNORECASE`): the match starts at the leftmost ASCII-uppercase
character — possibly in the middle of a whitespace-delimited token. -/
def capSearch : List Char → Option (List Char)
  | [] => none
  | c :: t =>
    if isUpperA c then some (c :: t.takeWhile isAlnumA ++ moreCaps 5 (t.dropWhile isAlnumA))
    else capSearch t

/-- Pattern 2 of `extract_product_name` (`sec_final.py` lines 265-271),
returning the raw capture group. -/
def pat2Search (context keyword : List Char) : Option (List Char) :=
  capSearch (wordsAfterOf context keyword)

/-- The repetition `(?:\s+[a-zA-Z0-9]+){0,n}` of pattern 3 (greedy, never
backtracked into). -/
def moreWords3 : Nat → List Char → List Char
  | 0, _ => []
  | n + 1, l =>
    let ws := l.takeWhile pyIsSpace
    if ws.isEmpty then []
    else
      match l.dropWhile pyIsSpace with
      | [] => []
      | c :: t =>
        if isAlnumA c then ws ++ c :: t.takeWhile isAlnumA ++ moreWords3 n (t.dropWhile isAlnumA)
        else []

/-- The capture group of pattern 3, `([A-Z][a-zA-Z0-9]*(?:\s+[a-zA-Z0-9]+){0,4})`
under `re.IGNORECASE` (so `[A-Z]` matches any ASCII letter). -/
def pat3Capture : List Char → Option (List Char)
  | [] => none
  | c :: t =>
    if isLetterA c then some (c :: t.takeWhile isAlnumA ++ moreWords3 4 (t.dropWhile isAlnumA))
    else none

/-- One candidate position of the lazy `[^.]*?the\s+(...)` tail of pattern 3:
`the` case-insensitively, then a non-empty whitespace run, then the capture
group. -/
def theAttempt (l : List Char) : Option (List Char) :=
  match l with
  | c1 :: c2 :: c3 :: rest =>
    if c1.toLower = 't' ∧ c2.toLower = 'h' ∧ c3.toLower = 'e' then
      if (rest.takeWhile pyIsSpace).isEmpty then none
      else pat3Capture (rest.dropWhile pyIsSpace)
    else none
  | _ => none

/-- The lazy scan `[^.]*?the\s+(...)` after a keyword occurrence: positions
are tried left to right, a dot (which `[^.]` cannot consume) ends the scan. -/
def pat3After : List Char → Option (List Char)
  | [] => none
  | c :: t =>
    match theAttempt (c :: t) with
    | some g => some g
    | none => if c = '.' then none else pat3After t

/-- `re.search` scan for pattern 3 over keyword occurrences
(case-insensitive), left to right. -/
def pat3Go (kwL ctx : List Char) : List Char → Nat → Option (List Char)
  | [], i =>
    if kwL.isPrefixOf ([] : List Char) then pat3After (ctx.drop (i + kwL.length))
    else none
  | c :: t, i =>
    if kwL.isPrefixOf (c :: t) then
      match pat3After (ctx.drop (i + kwL.length)) with
      | some g => some g
      | none => pat3Go kwL ctx t (i + 1)
    else pat3Go kwL ctx t (i + 1)

/-- Pattern 3 of `extract_product_name` as spelled at `sec_final.py` lines
273-278, returning the raw capture group.  Dead code at run time: the
`str.format` call that would build this regex raises a `KeyError` with key `0,4`
first (see `extract_product_name`); the definition is kept as the reading of
the regex text itself. -/
def pat3Search (context keyword : List Char) : Option (List Char) :=
  pat3Go (lower keyword) context (lower context) 0

/-- Outcome of a Python call that either returns a string or raises an
uncaught `KeyError` (payload: the missing key). -/
inductive PyResult where
  | ok : List Char → PyResult
  | keyError : List Char → PyResult
deriving DecidableEq

/-- `SECFilingExtractor.extract_product_name` (`sec_final.py` lines 254-281):
the heuristics in order, each returning `match.group(1).strip()`.  When
patterns 1 and 2 both fail, line 274 evaluates
the pattern-3 regex template through `str.format`, which parses the
repetition braces around `0,4` in the template as a replacement field and
raises a `KeyError` with key `0,4` before `re.compile` ever runs;
nothing in `extract_product_name` or its callers catches it.  Pattern 3
(`pat3Search`) and the `"New Product"` fallback of line 281 are therefore
unreachable. -/
def extract_product_name (context keyword : List Char) : PyResult :=
  match pat1Search context keyword with
  | some g => .ok (stripL g)
  | none =>
    match pat2Search context keyword with
    | some g => .ok (stripL g)
    | none => .keyError "0,4".data

/-- Decimal digits of `n`, most significant first, by repeated division (the
first argument is fuel, sufficient whenever `n ≤ fuel`); empty for `n = 0`. -/
def natDigitsAux : Nat → Nat → List Char
  | 0, _ => []
  | fuel + 1, n =>
    if n = 0 then []
    else natDigitsAux fuel (n / 10) ++ [Nat.digitChar (n % 10)]

/-- Python `str(n)` for a natural number. -/
def pyStr (n : Nat) : List Char :=
  if n = 0 then ['0'] else natDigitsAux (n + 1) n

/-- Python `str.zfill(w)`: left-pad with zeros to width `w` (never truncates). -/
def zfill (w : Nat) (s : List Char) : List Char :=
  List.replicate (w - s.length) '0' ++ s

/-- One entry of the company-tickers payload: the fields `ticker` and
`cik_str` (a JSON number) actually read by the code. -/
structure TickerEntry where
  ticker : List Char
  cik : Nat
deriving DecidableEq

/-- The payload loop of `SECFilingExtractor.get_company_tickers`
(`sec_final.py` lines 76-82): build `ticker -> str(cik_str).zfill(10)`.
The Python dict is modelled as the association list of its insertions. -/
def get_company_tickers (payload : List TickerEntry) : List (List Char × List Char) :=
  payload.map (fun e => (e.ticker, zfill 10 (pyStr e.cik)))

/-- One filing record assembled by `get_recent_filings`
(`sec_final.py` lines 135-140). -/
structure Filing where
  accessionNumber : List Char
  filingDate : List Char
  indexUrl : List Char
  docUrl : List Char
deriving DecidableEq

/-- Record construction of `sec_final.py` lines 124-140: the index URL keeps
the dashed accession number in the file name and strips the dashes in the
path segment; the document URL is built only from a non-empty primary
document name. -/
def mkFiling (cik acc date pdoc : List Char) : Filing :=
  let accNd := acc.filter (fun c => c ≠ '-')
  let base := "https://www.sec.gov/Archives/edgar/data/".data ++ cik ++ [ '/' ] ++ accNd ++ [ '/' ]
  { accessionNumber := acc
    filingDate := date
    indexUrl := base ++ acc ++ "-index.htm".data
    docUrl := if pdoc.isEmpty then [] else base ++ pdoc }

/-- The `recent` object of the submissions payload: the four parallel arrays
read by the code, each `none` when its key is absent. -/
structure RecentFilings where
  form : Option (List (List Char))
  accessionNumber : Option (List (List Char))
  filingDate : Option (List (List Char))
  primaryDocument : Option (List (List Char))
deriving DecidableEq

/-- The submissions payload: `none` models a response in which `filings` or
`filings.recent` is absent. -/
structure SubmissionsData where
  recent : Option RecentFilings
deriving DecidableEq

/-- The filing loop of `SECFilingExtractor.get_recent_filings`
(`sec_final.py` lines 117-143) over the suffix of the form array starting at
index `i`: a position whose form equals `form_type` reads
`accessionNumber[i]`, `filingDate[i]` and `primaryDocument[i]` (the last
from the one-element default `[ "" ]` when the key is absent); any
out-of-range read raises (result `none`, turned into `[]` by the
`except` handler); after appending, `len(filings) >= count` breaks. -/
def filingsGo (ft cik : List Char) (count : Nat) (accs dates pdl : List (List Char)) :
    List (List Char) → Nat → List Filing → Option (List Filing)
  | [], _, acc => some acc
  | f :: tl, i, acc =>
    if f = ft then
      match accs[i]?, dates[i]?, pdl[i]? with
      | some a, some d, some p =>
        let acc2 := acc ++ [mkFiling cik a d p]
        if count ≤ acc2.length then some acc2 else filingsGo ft cik count accs dates pdl tl (i + 1) acc2
      | _, _, _ => none
    else filingsGo ft cik count accs dates pdl tl (i + 1) acc

/-- `SECFilingExtractor.get_recent_filings` (`sec_final.py` lines 88-150),
from the decoded submissions payload onward: shape checks for
`filings.recent` and for the `form` and `accessionNumber` keys return `[]`;
`filingDate` is not checked, so its absence (modelled as the empty array,
which raises on any read, exactly like the missing key) only surfaces at the
first matching position; every raised exception yields `[]`. -/
def get_recent_filings (data : SubmissionsData) (cik ft : List Char) (count : Nat) : List Filing :=
  match data.recent with
  | none => []
  | some rf =>
    match rf.form, rf.accessionNumber with
    | some forms, some accs =>
      match filingsGo ft cik count accs (rf.filingDate.getD []) (rf.primaryDocument.getD [[]]) forms 0 [] with
      | some l => l
      | none => []
    | _, _ => []

/-- The text normalization of `SECFilingExtractor.get_filing_text`
(`sec_final.py` lines 225-227), step 1: Python `str.splitlines` (universal
newlines, `\r\n` as one boundary, no trailing empty line). -/
def splitlinesGo : List Char → List Char → List (List Char)
  | [], cur => if cur.isEmpty then [] else [cur]
  | [c], cur => if isLineBreak c then [cur] else [cur ++ [c]]
  | a :: b :: rest, cur =>
    if a = '\r' && b = '\n' then cur :: splitlinesGo rest []
    else if isLineBreak a then cur :: splitlinesGo (b :: rest) []
    else splitlinesGo (b :: rest) (cur ++ [a])

/-- Python `str.splitlines`. -/
def pySplitlines (s : List Char) : List (List Char) := splitlinesGo s []

/-- Python `s.split("  ")`: split on non-overlapping occurrences of two
consecutive spaces, scanned left to right. -/
def split2SpGo : List Char → List Char → List (List Char)
  | [], cur => [cur]
  | [c], cur => [cur ++ [c]]
  | a :: b :: rest, cur =>
    if a = ' ' && b = ' ' then cur :: split2SpGo rest []
    else split2SpGo (b :: rest) (cur ++ [a])

/-- Python `s.split("  ")`. -/
def pySplit2Sp (s : List Char) : List (List Char) := split2SpGo s []

/-- Join with single newlines, Python `"\n".join(...)`. -/
def joinNL : List (List Char) → List Char
  | [] => []
  | [x] => x
  | x :: xs => x ++ '\n' :: joinNL xs

/-- The chunk list of `sec_final.py` lines 225-227: strip each line of
`text.splitlines()`, split each on two spaces, strip each fragment, drop the
empty ones. -/
def cleanChunks (text : List Char) : List (List Char) :=
  (((pySplitlines text).map stripL).flatMap pySplit2Sp).map stripL |>.filter (fun c => !c.isEmpty)

/-- The text normalization of `SECFilingExtractor.get_filing_text`
(`sec_final.py` lines 225-227):
`text = '\n'.join(chunk for chunk in chunks if chunk)`. -/
def get_filing_text_clean (text : List Char) : List Char :=
  joinNL (cleanChunks text)

/-- The company loop of `SECFilingExtractor.process_companies`
(`sec_final.py` lines 286-292): the fixed candidate list. -/
def companies : List (List Char) :=
  ["AAPL".data, "MSFT".data, "GOOGL".data, "AMZN".data, "META".data]

/-- The company-selection control flow of `SECFilingExtractor.process_companies`
(`sec_final.py` lines 300-314), which alone decides which companies are
processed: stop once `company_count >= Config.MAX_COMPANIES`; a ticker absent
from the map is skipped without incrementing `company_count`; a present
ticker is processed (the per-filing body never changes `company_count` or the
candidate list).  The ticker map is modelled by its lookup function; the
returned list is the sequence of `(ticker, cik)` pairs processed. -/
def processLoop (m : List Char → Option (List Char)) :
    List (List Char) → Nat → List (List Char × List Char)
  | [], _ => []
  | t :: rest, cnt =>
    if MAX_COMPANIES ≤ cnt then []
    else
      match m t with
      | none => processLoop m rest cnt
      | some cik => (t, cik) :: processLoop m rest (cnt + 1)

/-- The sequence of companies processed by `process_companies` for a given
ticker map. -/
def processedCompanies (m : List Char → Option (List Char)) : List (List Char × List Char) :=
  processLoop m companies 0

/-- Whitespace-delimited tokens of a string (Python `str.split()` with no
argument: maximal non-whitespace runs, empties dropped). -/
def pyTokensGo : List Char → List Char → List (List Char)
  | [], cur => if cur.isEmpty then [] else [cur]
  | c :: t, cur =>
    if pyIsSpace c then
      if cur.isEmpty then pyTokensGo t [] else cur :: pyTokensGo t []
    else pyTokensGo t (cur ++ [c])

/-- Whitespace-delimited tokens of a string. -/
def pyTokens (s : List Char) : List (List Char) := pyTokensGo s []

/-- One word of pattern 2: an ASCII-uppercase letter followed by its maximal
alphanumeric run; returns the word and the remainder. -/
def capWord : List Char → Option (List Char × List Char)
  | [] => none
  | c :: t =>
    if isUpperA c then some (c :: t.takeWhile isAlnumA, t.dropWhile isAlnumA) else none

/-- Acceptor for the tail of a capitalized run: up to `n` further words, each
preceded by a non-empty whitespace run, consuming the whole list. -/
def capRunRest : Nat → List Char → Bool
  | _, [] => true
  | 0, _ => false
  | n + 1, l =>
    if (l.takeWhile pyIsSpace).isEmpty then false
    else
      match capWord (l.dropWhile pyIsSpace) with
      | some (_, rest) => capRunRest n rest
      | none => false

/-- Acceptor for the full shape of a pattern-2 match: one to six words, each
an alphanumeric word starting with an ASCII-uppercase letter, separated by
non-empty whitespace runs, and nothing else. -/
def capRunCheck (r : List Char) : Bool :=
  match capWord r with
  | some (_, rest) => capRunRest 5 rest
  | none => false

/-- Filing record at position `j` of the parallel arrays (out-of-range reads
defaulted; used only to describe records at in-range matched positions). -/
def recordAt (cik : List Char) (accs dates pdl : List (List Char)) (j : Nat) : Filing :=
  mkFiling cik ((accs[j]?).getD []) ((dates[j]?).getD []) ((pdl[j]?).getD [])

/-- The fetched text of the end-to-end scenario of the specification. -/
def appleText : List Char := "Apple today announced the iPhone 17 with new features.".data

/-- The fallback-scenario context of the specification. -/
def fallbackCtx : List Char := "the company will announce this exciting update soon".data

/-- Whether a list contains two consecutive spaces (an occurrence of the
separator of Python `split("  ")`). -/
def hasTwoSp : List Char → Bool
  | [] => false
  | [_] => false
  | a :: b :: rest => (a = ' ' && b = ' ') || hasTwoSp (b :: rest)

/-- A concrete submissions payload: two filings, the first of form `8-K`. -/
def sampleSubmissions : SubmissionsData :=
  ⟨some ⟨some ["8-K".data, "10-K".data],
    some ["0000320193-25-000001".data, "0000320193-25-000002".data],
    some ["2025-01-02".data, "2025-01-03".data],
    some ["doc1.htm".data, "doc2.htm".data]⟩⟩

/-- A concrete submissions payload without the `primaryDocument` key, whose
only form match is at index 0. -/
def noPdocSubmissions : SubmissionsData :=
  ⟨some ⟨some ["8-K".data], some ["0000320193-25-000001".data],
    some ["2025-01-02".data], none⟩⟩

/-- A concrete submissions payload without the `primaryDocument` key and with
form matches at indices 0 and 1. -/
def twoMatchNoPdocSubmissions : SubmissionsData :=
  ⟨some ⟨some ["8-K".data, "8-K".data],
    some ["0000320193-25-000001".data, "0000320193-25-000002".data],
    some ["2025-01-02".data, "2025-01-03".data], none⟩⟩

/-! ### Claim theorems -/

/-- C1 counterexample: on the end-to-end scenario text, the extractor applied
to the detector's context with keyword `announce` does not return
`iPhone 17`; the claimed pattern-3 result is wrong (pattern 2 fires first,
on the mid-token match `Phone`). -/
theorem C1_counterexample :
    extract_product_name (contains_product_info appleText).2.1 "announce".data ≠
      PyResult.ok "iPhone 17".data := by decide

/-- C1 (amended): for the fetched text of the end-to-end scenario,
`contains_product_info` returns found, keyword `announce`, and a context
containing `announced the iPhone 17` (here the whole text); on that context
`extract_product_name` returns `Phone` via pattern 2 — the capitalized-run
heuristic matches the leftmost uppercase letter, in the middle of the token
`iPhone` — not `iPhone 17` via pattern 3. -/
theorem C1_amended :
    contains_product_info appleText = (true, appleText, "announce".data) ∧
    (findSub "announced the iPhone 17".data (contains_product_info appleText).2.1).isSome = true ∧
    pat1Search (contains_product_info appleText).2.1 "announce".data = none ∧
    pat2Search (contains_product_info appleText).2.1 "announce".data = some "Phone".data ∧
    extract_product_name (contains_product_info appleText).2.1 "announce".data =
      PyResult.ok "Phone".data := by decide

/-- C2 (code bug): on the fallback-scenario context with keyword `announce`,
patterns 1 and 2 both fail and line 274 of `sec_final.py` raises an uncaught
`KeyError` (the braces around `0,4` in the pattern-3 template are parsed by
`str.format` as a replacement field), so `extract_product_name` never
returns — in particular it does not return `New Product`. -/
theorem C2_failing :
    extract_product_name fallbackCtx "announce".data = PyResult.keyError "0,4".data := by
  decide

/-- C3 counterexample: on context `launch iPhone` with keyword `launch`,
heuristic 1 fails and heuristic 2 fires, but its result `Phone` is not a run
of whole whitespace-delimited tokens of the text after the keyword (the only
token there is `iPhone`): the match starts mid-token. -/
theorem C3_counterexample :
    pat1Search "launch iPhone".data "launch".data = none ∧
    pat2Search "launch iPhone".data "launch".data = some "Phone".data ∧
    extract_product_name "launch iPhone".data "launch".data = PyResult.ok "Phone".data ∧
    ¬ pyTokens "Phone".data <:+: pyTokens (wordsAfterOf "launch iPhone".data "launch".data) := by
  decide

/-! ### Character-class and list facts -/

theorem pyIsSpace_iff (c : Char) : pyIsSpace c = true ↔ c ∈ pySpaceChars := List.elem_iff

theorem isLineBreak_iff (c : Char) : isLineBreak c = true ↔ c ∈ lineBreakChars := List.elem_iff

theorem alnumA_not_space {c : Char} (h : isAlnumA c = true) : pyIsSpace c = false := by
  cases hs : pyIsSpace c with
  | false => rfl
  | true =>
    have hall : ∀ x ∈ pySpaceChars, isAlnumA x = false := by decide
    rw [hall c ((pyIsSpace_iff c).mp hs)] at h
    cases h

theorem space_not_alnumA {c : Char} (h : pyIsSpace c = true) : isAlnumA c = false := by
  cases ha : isAlnumA c with
  | false => rfl
  | true => rw [alnumA_not_space ha] at h; cases h

theorem upperA_alnumA {c : Char} (h : isUpperA c = true) : isAlnumA c = true := by
  simp only [isUpperA, Bool.and_eq_true] at h
  simp only [isAlnumA, Bool.or_eq_true, Bool.and_eq_true]
  exact Or.inl (Or.inl h)

theorem letterA_alnumA {c : Char} (h : isLetterA c = true) : isAlnumA c = true := by
  simp only [isLetterA, Bool.and_eq_true, Bool.or_eq_true] at h
  simp only [isAlnumA, Bool.or_eq_true, Bool.and_eq_true]
  rcases h with h | h
  · exact Or.inl (Or.inl h)
  · exact Or.inl (Or.inr h)

theorem upperA_not_space {c : Char} (h : isUpperA c = true) : pyIsSpace c = false :=
  alnumA_not_space (upperA_alnumA h)

theorem head?_mem_of_eq {l : List Char} {c : Char} (h : l.head? = some c) : c ∈ l := by
  cases l with
  | nil => cases h
  | cons a t =>
    rw [List.head?_cons] at h
    injection h with h
    rw [← h]
    exact List.mem_cons_self a t

theorem takeWhile_head_sat {p : Char → Bool} {l : List Char} {c : Char}
    (h : (l.takeWhile p).head? = some c) : p c = true :=
  List.mem_takeWhile_imp (head?_mem_of_eq h)

theorem takeWhile_append_all {p : Char → Bool} {a : List Char} (b : List Char)
    (ha : ∀ x ∈ a, p x = true) (hb : ∀ c, b.head? = some c → p c = false) :
    (a ++ b).takeWhile p = a := by
  induction a with
  | nil =>
    cases b with
    | nil => rfl
    | cons c t =>
      simp only [List.nil_append, List.takeWhile_cons, hb c rfl]
      rfl
  | cons x a ih =>
    have hx : p x = true := ha x (List.mem_cons_self x a)
    simp only [List.cons_append, List.takeWhile_cons, hx, if_true]
    rw [ih (fun y hy => ha y (List.mem_cons_of_mem x hy))]

theorem dropWhile_append_all {p : Char → Bool} {a : List Char} (b : List Char)
    (ha : ∀ x ∈ a, p x = true) (hb : ∀ c, b.head? = some c → p c = false) :
    (a ++ b).dropWhile p = b := by
  induction a with
  | nil =>
    cases b with
    | nil => rfl
    | cons c t =>
      simp only [List.nil_append, List.dropWhile_cons, hb c rfl]
      rfl
  | cons x a ih =>
    have hx : p x = true := ha x (List.mem_cons_self x a)
    simp only [List.cons_append, List.dropWhile_cons, hx, if_true]
    exact ih (fun y hy => ha y (List.mem_cons_of_mem x hy))

theorem stripL_eq_self {l : List Char}
    (h1 : ∀ c, l.head? = some c → pyIsSpace c = false)
    (h2 : ∀ c, l.getLast? = some c → pyIsSpace c = false) :
    stripL l = l := by
  unfold stripL
  have hd : l.dropWhile pyIsSpace = l := by
    cases l with
    | nil => rfl
    | cons a t =>
      simp only [List.dropWhile_cons, h1 a rfl]
      rfl
  rw [hd]
  have hr : l.reverse.dropWhile pyIsSpace = l.reverse := by
    cases hrev : l.reverse with
    | nil => rfl
    | cons a t =>
      have : l.getLast? = some a := by
        rw [← List.head?_reverse, hrev]
        rfl
      simp only [List.dropWhile_cons, h2 a this]
      rfl
  rw [hr, List.reverse_reverse]

/-! ### Structure of pattern-2 matches -/

theorem moreCaps_head {n : Nat} {l : List Char} {c : Char}
    (h : (moreCaps n l).head? = some c) : pyIsSpace c = true := by
  cases n with
  | zero => cases h
  | succ n =>
    simp only [moreCaps] at h
    by_cases hw : (l.takeWhile pyIsSpace).isEmpty
    · rw [if_pos hw] at h; cases h
    · rw [if_neg hw] at h
      cases hd : l.dropWhile pyIsSpace with
      | nil => rw [hd] at h; cases h
      | cons x t =>
        rw [hd] at h
        dsimp only at h
        by_cases hu : isUpperA x
        · rw [if_pos hu] at h
          cases htw : l.takeWhile pyIsSpace with
          | nil => rw [htw] at hw; cases hw rfl
          | cons w ws =>
            rw [htw] at h
            simp only [List.cons_append, List.head?_cons] at h
            injection h with h
            rw [← h]
            exact takeWhile_head_sat (l := l) (htw ▸ rfl)
        · rw [if_neg hu] at h; cases h

theorem getLast?_cons_append_right {a : List Char} {x : Char} {b : List Char} :
    (a ++ x :: b).getLast? = (x :: b).getLast? :=
  List.getLast?_append_of_ne_nil a (List.cons_ne_nil x b)

theorem getLast?_mem_of_eq {l : List Char} {c : Char} (h : l.getLast? = some c) : c ∈ l := by
  have hh : l.reverse.head? = some c := by rw [List.head?_reverse]; exact h
  have := head?_mem_of_eq hh
  exact (List.mem_reverse).mp this

theorem moreCaps_last {n : Nat} {l : List Char} {c : Char}
    (h : (moreCaps n l).getLast? = some c) : isAlnumA c = true := by
  induction n generalizing l with
  | zero => cases h
  | succ n ih =>
    simp only [moreCaps] at h
    by_cases hw : (l.takeWhile pyIsSpace).isEmpty
    · rw [if_pos hw] at h; cases h
    · rw [if_neg hw] at h
      cases hd : l.dropWhile pyIsSpace with
      | nil => rw [hd] at h; cases h
      | cons x t =>
        rw [hd] at h
        dsimp only at h
        by_cases hu : isUpperA x
        · rw [if_pos hu] at h
          cases hm : moreCaps n (t.dropWhile isAlnumA) with
          | nil =>
            rw [hm, List.append_nil, getLast?_cons_append_right] at h
            cases htk : t.takeWhile isAlnumA with
            | nil =>
              rw [htk] at h
              injection h with h
              rw [← h]; exact upperA_alnumA hu
            | cons y ys =>
              rw [htk, List.getLast?_cons_cons] at h
              exact List.mem_takeWhile_imp (htk ▸ getLast?_mem_of_eq h)
          | cons z zs =>
            rw [hm, getLast?_cons_append_right, ← hm] at h
            exact ih h
        · rw [if_neg hu] at h; cases h

theorem capWord_concat {c : Char} {t : List Char} (rest : List Char)
    (hu : isUpperA c = true)
    (hrest : ∀ x, rest.head? = some x → isAlnumA x = false) :
    capWord (c :: (t.takeWhile isAlnumA ++ rest)) = some (c :: t.takeWhile isAlnumA, rest) := by
  have h1 : (t.takeWhile isAlnumA ++ rest).takeWhile isAlnumA = t.takeWhile isAlnumA :=
    takeWhile_append_all rest (fun x hx => List.mem_takeWhile_imp hx) hrest
  have h2 : (t.takeWhile isAlnumA ++ rest).dropWhile isAlnumA = rest :=
    dropWhile_append_all rest (fun x hx => List.mem_takeWhile_imp hx) hrest
  simp only [capWord, hu, if_true, h1, h2]

theorem moreCaps_head_not_alnum {n : Nat} {l : List Char} :
    ∀ x, (moreCaps n l).head? = some x → isAlnumA x = false :=
  fun _ hx => space_not_alnumA (moreCaps_head hx)

theorem capRunRest_moreCaps (n : Nat) (l : List Char) :
    capRunRest n (moreCaps n l) = true := by
  induction n generalizing l with
  | zero => rfl
  | succ n ih =>
    simp only [moreCaps]
    by_cases hw : (l.takeWhile pyIsSpace).isEmpty
    · rw [if_pos hw]; rfl
    · rw [if_neg hw]
      cases hd : l.dropWhile pyIsSpace with
      | nil => rfl
      | cons x t =>
        dsimp only
        by_cases hu : isUpperA x
        · rw [if_pos hu]
          cases htw : l.takeWhile pyIsSpace with
          | nil => rw [htw] at hw; cases hw rfl
          | cons w ws =>
            have hspace_all : ∀ y ∈ w :: ws, pyIsSpace y = true :=
              fun y hy => List.mem_takeWhile_imp (htw ▸ hy)
            have hhead : ∀ y, (x :: (t.takeWhile isAlnumA ++ moreCaps n (t.dropWhile isAlnumA))).head? = some y →
                pyIsSpace y = false := by
              intro y hy
              rw [List.head?_cons] at hy
              injection hy with hy
              rw [← hy]
              exact upperA_not_space hu
            have ht : ((w :: ws) ++ (x :: (t.takeWhile isAlnumA ++ moreCaps n (t.dropWhile isAlnumA)))).takeWhile pyIsSpace = w :: ws :=
              takeWhile_append_all _ hspace_all hhead
            have hdp : ((w :: ws) ++ (x :: (t.takeWhile isAlnumA ++ moreCaps n (t.dropWhile isAlnumA)))).dropWhile pyIsSpace = x :: (t.takeWhile isAlnumA ++ moreCaps n (t.dropWhile isAlnumA)) :=
              dropWhile_append_all _ hspace_all hhead
            have hshape : ((w :: ws ++ x :: t.takeWhile isAlnumA) ++ moreCaps n (t.dropWhile isAlnumA)) =
                (w :: ws) ++ (x :: (t.takeWhile isAlnumA ++ moreCaps n (t.dropWhile isAlnumA))) := by
              simp [List.append_assoc]
            rw [hshape, List.cons_append]
            simp only [capRunRest]
            rw [← List.cons_append, ht, hdp]
            simp only [List.isEmpty_cons, capWord_concat (moreCaps n (t.dropWhile isAlnumA)) hu moreCaps_head_not_alnum]
            exact ih (t.dropWhile isAlnumA)
        · rw [if_neg hu]; rfl

theorem capSearch_some {l r : List Char} (h : capSearch l = some r) :
    ∃ (c : Char) (t : List Char), isUpperA c = true ∧
      r = c :: t.takeWhile isAlnumA ++ moreCaps 5 (t.dropWhile isAlnumA) := by
  induction l with
  | nil => cases h
  | cons c t ih =>
    by_cases hu : isUpperA c
    · refine ⟨c, t, hu, ?_⟩
      simp only [capSearch, hu, if_true] at h
      injection h with h
      exact h.symm
    · simp only [capSearch, hu, if_false] at h
      exact ih h

theorem capSearch_shape {l r : List Char} (h : capSearch l = some r) :
    stripL r = r ∧ capRunCheck r = true ∧ r ≠ [] := by
  obtain ⟨c, t, hu, hr⟩ := capSearch_some h
  subst hr
  have hhead : ∀ y, ((c :: t.takeWhile isAlnumA ++ moreCaps 5 (t.dropWhile isAlnumA))).head? = some y →
      pyIsSpace y = false := by
    intro y hy
    simp only [List.cons_append, List.head?_cons] at hy
    injection hy with hy
    rw [← hy]
    exact upperA_not_space hu
  have hlast : ∀ y, ((c :: t.takeWhile isAlnumA ++ moreCaps 5 (t.dropWhile isAlnumA))).getLast? = some y →
      pyIsSpace y = false := by
    intro y hy
    cases hm : moreCaps 5 (t.dropWhile isAlnumA) with
    | nil =>
      rw [hm, List.append_nil] at hy
      cases htk : t.takeWhile isAlnumA with
      | nil =>
        rw [htk] at hy
        injection hy with hy
        rw [← hy]
        exact upperA_not_space hu
      | cons z zs =>
        rw [htk, List.getLast?_cons_cons] at hy
        exact alnumA_not_space (List.mem_takeWhile_imp (htk ▸ getLast?_mem_of_eq hy))
    | cons z zs =>
      rw [hm, getLast?_cons_append_right, ← hm] at hy
      exact alnumA_not_space (moreCaps_last hy)
  refine ⟨stripL_eq_self hhead hlast, ?_, by simp⟩
  simp only [List.cons_append, capRunCheck,
    capWord_concat (moreCaps 5 (t.dropWhile isAlnumA)) hu moreCaps_head_not_alnum]
  exact capRunRest_moreCaps 5 (t.dropWhile isAlnumA)

/-- C3 (amended): whenever heuristic 2 fires (`pat2Search` returns a group
`r`), `r` is already stripped and consists of one to six words, each an
alphanumeric word starting with an ASCII-uppercase letter, separated by
whitespace runs (`capRunCheck`); and when heuristic 1 failed,
`extract_product_name` returns exactly `r`.  The first word, however, need
not be a whole whitespace-delimited token of the text after the keyword: the
match may start in the middle of a token (see the counterexample). -/
theorem C3_amended (context keyword r : List Char)
    (h2 : pat2Search context keyword = some r) :
    capRunCheck r = true ∧ stripL r = r ∧
      (pat1Search context keyword = none →
        extract_product_name context keyword = PyResult.ok r) := by
  have hs := capSearch_shape h2
  refine ⟨hs.2.1, hs.1, ?_⟩
  intro h1
  unfold extract_product_name
  rw [h1, h2]
  dsimp only
  rw [hs.1]

/-- C3 witness: a concrete context on which heuristic 2 fires with the group
`Big Sur`, which `capRunCheck` accepts and `extract_product_name` returns. -/
theorem C3_witness :
    pat2Search "we launch Big Sur 2 today".data "launch".data = some "Big Sur".data ∧
    pat1Search "we launch Big Sur 2 today".data "launch".data = none ∧
    capRunCheck "Big Sur".data = true ∧
    extract_product_name "we launch Big Sur 2 today".data "launch".data =
      PyResult.ok "Big Sur".data := by
  have h := C3_amended "we launch Big Sur 2 today".data "launch".data "Big Sur".data
    (by decide)
  exact ⟨by decide, by decide, h.1, h.2.2 (by decide)⟩

/-! ### MentionDetector lemmas -/

theorem containsLoop_first {text tl : List Char} (ks : List (List Char)) (i : Nat)
    (kwi : List Char) (hi : ks[i]? = some kwi)
    (hocc : (findSub kwi tl).isSome = true)
    (hfirst : ∀ k, k < i → ∀ kwk, ks[k]? = some kwk → findSub kwk tl = none) :
    (containsLoop text tl ks).1 = true ∧
      (containsLoop text tl ks).2.2 = kwi := by
  induction ks generalizing i with
  | nil => cases hi
  | cons kw rest ih =>
    cases i with
    | zero =>
      rw [List.getElem?_cons_zero] at hi
      injection hi with hi
      obtain rfl : kw = kwi := hi
      cases hf : findSub kw tl with
      | none => rw [hf] at hocc; cases hocc
      | some ki =>
        simp [containsLoop, hf]
    | succ i' =>
      have h0 : findSub kw tl = none :=
        hfirst 0 (Nat.succ_pos i') kw List.getElem?_cons_zero
      simp only [containsLoop, h0]
      rw [List.getElem?_cons_succ] at hi
      exact ih i' hi
        (fun k hk kwk hkwk =>
          hfirst (k + 1) (Nat.succ_lt_succ hk) kwk (by rw [List.getElem?_cons_succ]; exact hkwk))

theorem findSub_spec {needle hay : List Char} {i : Nat} (h : findSub needle hay = some i) :
    needle.isPrefixOf (hay.drop i) = true ∧
      ∀ j, j < i → needle.isPrefixOf (hay.drop j) = false := by
  induction hay generalizing i with
  | nil =>
    by_cases hp : needle.isPrefixOf ([] : List Char)
    · simp only [findSub, hp, if_true] at h
      injection h with h
      exact ⟨h ▸ hp, fun j hj => absurd (h ▸ hj) (Nat.not_lt_zero j)⟩
    · simp only [findSub, hp] at h
      rw [if_neg] at h
      · cases h
      · simp [hp]
  | cons c t ih =>
    cases hb : needle.isPrefixOf (c :: t) with
    | true =>
      simp only [findSub, hb, if_true] at h
      injection h with h
      subst h
      exact ⟨hb, fun j hj => absurd hj (Nat.not_lt_zero j)⟩
    | false =>
      simp only [findSub, hb, Bool.false_eq_true, if_false] at h
      cases hm : findSub needle t with
      | none => rw [hm] at h; simp at h
      | some i' =>
        rw [hm] at h
        simp only [Option.map_some'] at h
        have hspec := ih hm
        cases h
        refine ⟨hspec.1, ?_⟩
        intro j hj
        cases j with
        | zero => exact hb
        | succ j' => exact hspec.2 j' (Nat.lt_of_succ_lt_succ hj)

theorem containsLoop_context {text tl : List Char} (ks : List (List Char))
    (h : (containsLoop text tl ks).1 = true) :
    ∃ i, findSub (containsLoop text tl ks).2.2 tl = some i ∧
      (containsLoop text tl ks).2.1 =
        (text.drop (i - 100)).take (min text.length (i + 200) - (i - 100)) := by
  induction ks with
  | nil => simp [containsLoop] at h
  | cons kw rest ih =>
    cases hf : findSub kw tl with
    | some ki =>
      refine ⟨ki, ?_, ?_⟩ <;> simp [containsLoop, hf, pySlice]
    | none =>
      simp only [containsLoop, hf] at h ⊢
      exact ih h

/-- C4: keyword priority of `contains_product_info`.  If the keyword at
position `i` of the configured list occurs (case-insensitively) in the text,
no keyword configured before position `i` occurs, and some keyword at a later
position `j` also occurs — possibly at an earlier character position — then
the detector reports the keyword of position `i`: configured order wins over
character position. -/
theorem C4_keyword_priority (text : List Char) (i j : Nat) (kwi kwj : List Char)
    (hi : PRODUCT_KEYWORDS[i]? = some kwi) (_hj : PRODUCT_KEYWORDS[j]? = some kwj)
    (_hij : i < j)
    (hocc : (findSub kwi (lower text)).isSome = true)
    (_hoccj : (findSub kwj (lower text)).isSome = true)
    (hfirst : ∀ k, k < i → ∀ kwk, PRODUCT_KEYWORDS[k]? = some kwk →
      findSub kwk (lower text) = none) :
    (contains_product_info text).1 = true ∧
      (contains_product_info text).2.2 = kwi :=
  containsLoop_first PRODUCT_KEYWORDS i kwi hi hocc hfirst

/-- C4 witness: in `unveil then announce`, the later-configured keyword
`unveil` (list position 4) occurs at character position 0, before
`announce` (list position 2), yet the detector returns `announce`. -/
theorem C4_witness :
    (contains_product_info "unveil then announce".data).1 = true ∧
      (contains_product_info "unveil then announce".data).2.2 = "announce".data := by
  refine C4_keyword_priority "unveil then announce".data 2 4 "announce".data "unveil".data
    (by decide) (by decide) (by decide) (by decide) (by decide) ?_
  intro k hk kwk hkwk
  interval_cases k <;> simp only [PRODUCT_KEYWORDS, List.getElem?_cons_zero,
    List.getElem?_cons_succ] at hkwk <;> (cases hkwk; decide)

/-- C5: for every text on which the detector reports a match, the returned
context is the slice of the original text from `max(0, i-100)` to
`min(len(text), i+200)` (natural-number subtraction clamps the start at 0,
the `min` clamps the end at the text length), where `i` is the position of
the first case-insensitive occurrence of the matched keyword: the keyword is
a prefix of the lowered text dropped at `i` and at no earlier position. -/
theorem C5_context_window (text : List Char)
    (h : (contains_product_info text).1 = true) :
    ∃ i, ((contains_product_info text).2.2).isPrefixOf ((lower text).drop i) = true ∧
      (∀ j, j < i → ((contains_product_info text).2.2).isPrefixOf ((lower text).drop j) = false) ∧
      (contains_product_info text).2.1 =
        (text.drop (i - 100)).take (min text.length (i + 200) - (i - 100)) := by
  obtain ⟨i, hfind, hctx⟩ := containsLoop_context PRODUCT_KEYWORDS h
  have hspec := findSub_spec hfind
  exact ⟨i, hspec.1, hspec.2, hctx⟩

/-- C5 witness: a match at character position 0 (`launch` in `launchpad`),
where the window start clamps to 0 and the window end clamps to the text
length, so the context is the whole nine-character text. -/
theorem C5_witness :
    (contains_product_info "launchpad".data).1 = true ∧
      (∃ i, ((contains_product_info "launchpad".data).2.2).isPrefixOf
            ((lower "launchpad".data).drop i) = true ∧
        (∀ j, j < i → ((contains_product_info "launchpad".data).2.2).isPrefixOf
            ((lower "launchpad".data).drop j) = false) ∧
        (contains_product_info "launchpad".data).2.1 =
          ("launchpad".data.drop (i - 100)).take
            (min "launchpad".data.length (i + 200) - (i - 100))) :=
  ⟨by decide, C5_context_window "launchpad".data (by decide)⟩

/-! ### TickerResolver lemmas -/

theorem natDigitsAux_length {fuel n k : Nat} (hn : n < 10 ^ k) (hfuel : n ≤ fuel) :
    (natDigitsAux fuel n).length ≤ k := by
  induction fuel generalizing n k with
  | zero => simp [natDigitsAux]
  | succ fuel ih =>
    by_cases h0 : n = 0
    · simp [natDigitsAux, h0]
    · simp only [natDigitsAux, h0, if_false]
      rw [List.length_append, List.length_cons, List.length_nil]
      have hk : 1 ≤ k := by
        rcases Nat.eq_zero_or_pos k with hk0 | hk0
        · rw [hk0] at hn; simp at hn; omega
        · exact hk0
      have hdiv : n / 10 < 10 ^ (k - 1) := by
        apply Nat.div_lt_of_lt_mul
        have : 10 ^ (k - 1) * 10 = 10 ^ k := by
          rw [← pow_succ]
          congr 1
          omega
        omega
      have hfuel' : n / 10 ≤ fuel := by
        have : n / 10 < n := Nat.div_lt_self (Nat.pos_of_ne_zero h0) (by norm_num)
        omega
      have := ih hdiv hfuel'
      omega

theorem digitChar_isDigit {m : Nat} (hm : m < 10) : (Nat.digitChar m).isDigit = true := by
  interval_cases m <;> decide

theorem natDigitsAux_digits {fuel n : Nat} : ∀ c ∈ natDigitsAux fuel n, c.isDigit = true := by
  induction fuel generalizing n with
  | zero => simp [natDigitsAux]
  | succ fuel ih =>
    by_cases h0 : n = 0
    · simp [natDigitsAux, h0]
    · simp only [natDigitsAux, h0, if_false]
      intro c hc
      rw [List.mem_append] at hc
      rcases hc with hc | hc
      · exact ih c hc
      · rw [List.mem_singleton] at hc
        subst hc
        exact digitChar_isDigit (Nat.mod_lt n (by norm_num))

/-- C6: every identifier produced by `get_company_tickers` from a well-formed
payload — one whose raw numeric ids lie in the ten-digit id space presupposed
by the width-10 zero padding — has length exactly 10 and consists only of
digit characters (Python `str(cik).zfill(10)`). -/
theorem C6_identifier_shape (payload : List TickerEntry)
    (hwf : ∀ e ∈ payload, e.cik < 10 ^ 10) :
    ∀ p ∈ get_company_tickers payload,
      p.2.length = 10 ∧ ∀ c ∈ p.2, c.isDigit = true := by
  intro p hp
  rw [get_company_tickers, List.mem_map] at hp
  obtain ⟨e, he, rfl⟩ := hp
  dsimp only
  have hlen : (pyStr e.cik).length ≤ 10 := by
    rw [pyStr]
    by_cases h0 : e.cik = 0
    · simp [h0]
    · simp only [h0, if_false]
      exact natDigitsAux_length (hwf e he) (Nat.le_succ _)
  constructor
  · rw [zfill, List.length_append, List.length_replicate]
    omega
  · intro c hc
    rw [zfill, List.mem_append] at hc
    rcases hc with hc | hc
    · rw [List.mem_replicate] at hc
      rw [hc.2]
      decide
    · rw [pyStr] at hc
      by_cases h0 : e.cik = 0
      · rw [h0] at hc
        simp at hc
        rw [hc]
        decide
      · simp only [h0, if_false] at hc
        exact natDigitsAux_digits c hc

/-- C6 witness: the payload entry for ticker `AAPL` with raw id 320193 maps
to the ten-digit all-numeric identifier 0000320193. -/
theorem C6_witness :
    ("0000320193".data.length = 10 ∧ ∀ c ∈ "0000320193".data, c.isDigit = true) ∧
      get_company_tickers [⟨"AAPL".data, 320193⟩] =
        [("AAPL".data, "0000320193".data)] :=
  ⟨C6_identifier_shape [⟨"AAPL".data, 320193⟩] (by decide)
      ("AAPL".data, "0000320193".data) (by decide),
    by decide⟩

/-! ### Orchestrator lemmas -/

theorem processLoop_eq (m : List Char → Option (List Char)) (l : List (List Char))
    (cnt : Nat) :
    processLoop m l cnt =
      ((l.filter (fun t => (m t).isSome)).take (MAX_COMPANIES - cnt)).map
        (fun t => (t, (m t).getD [])) := by
  induction l generalizing cnt with
  | nil => simp [processLoop]
  | cons t rest ih =>
    by_cases hstop : MAX_COMPANIES ≤ cnt
    · have hz : MAX_COMPANIES - cnt = 0 := by omega
      simp [processLoop, hstop, hz]
    · simp only [processLoop, if_neg hstop]
      cases hm : m t with
      | none =>
        rw [List.filter_cons]
        simp only [hm, Option.isSome_none, Bool.false_eq_true, if_false]
        exact ih cnt
      | some cik =>
        rw [List.filter_cons]
        simp only [hm, Option.isSome_some, if_true]
        have hsub : MAX_COMPANIES - cnt = (MAX_COMPANIES - (cnt + 1)) + 1 := by omega
        rw [hsub, List.take_succ_cons, List.map_cons]
        rw [ih (cnt + 1)]
        simp [hm]

/-- C9: for every ticker map (modelled by its lookup function), the companies
processed by the `process_companies` loop are exactly the first
`MAX_COMPANIES` entries of the fixed candidate list that are present in the
map, paired with their identifiers, and never more than `MAX_COMPANIES`; a
candidate absent from the map is skipped without counting toward the limit
and without ending the run. -/
theorem C9_company_bounds (m : List Char → Option (List Char)) :
    processedCompanies m =
      ((companies.filter (fun t => (m t).isSome)).take MAX_COMPANIES).map
        (fun t => (t, (m t).getD [])) ∧
      (processedCompanies m).length ≤ MAX_COMPANIES := by
  have h := processLoop_eq m companies 0
  rw [Nat.sub_zero] at h
  refine ⟨h, ?_⟩
  rw [processedCompanies, h, List.length_map]
  calc (List.take MAX_COMPANIES (companies.filter (fun t => (m t).isSome))).length
      = min MAX_COMPANIES (companies.filter (fun t => (m t).isSome)).length :=
        List.length_take _ _
    _ ≤ MAX_COMPANIES := Nat.min_le_left _ _

/-! ### FilingLister lemmas -/

theorem filingsGo_length {ft cik : List Char} {count : Nat}
    {accs dates pdl : List (List Char)} :
    ∀ {tl : List (List Char)} {i : Nat} {acc res : List Filing},
      acc.length < count →
      filingsGo ft cik count accs dates pdl tl i acc = some res →
      res.length ≤ count := by
  intro tl
  induction tl with
  | nil =>
    intro i acc res hacc h
    injection h with h
    rw [← h]
    omega
  | cons f tl ih =>
    intro i acc res hacc h
    by_cases hf : f = ft
    · simp only [filingsGo, if_pos hf] at h
      cases ha : accs[i]? with
      | none => rw [ha] at h; cases h
      | some a =>
        rw [ha] at h
        cases hd : dates[i]? with
        | none => rw [hd] at h; cases h
        | some d =>
          rw [hd] at h
          cases hp : pdl[i]? with
          | none => rw [hp] at h; cases h
          | some pd =>
            rw [hp] at h
            dsimp only at h
            by_cases hbreak : count ≤ (acc ++ [mkFiling cik a d pd]).length
            · rw [if_pos hbreak] at h
              injection h with h
              rw [← h, List.length_append]
              simp only [List.length_cons, List.length_nil]
              omega
            · rw [if_neg hbreak] at h
              exact ih (by omega) h
    · simp only [filingsGo, if_neg hf] at h
      exact ih hacc h

theorem filingsGo_spec {ft cik : List Char} {count : Nat}
    {accs dates pdl formsAll : List (List Char)} :
    ∀ {tl : List (List Char)} {i : Nat} {acc res : List Filing},
      tl = formsAll.drop i →
      filingsGo ft cik count accs dates pdl tl i acc = some res →
      ∃ is : List Nat, List.Chain' (· < ·) is ∧
        (∀ j ∈ is, i ≤ j ∧ formsAll[j]? = some ft) ∧
        res = acc ++ is.map (recordAt cik accs dates pdl) := by
  intro tl
  induction tl with
  | nil =>
    intro i acc res _ h
    injection h with h
    exact ⟨[], List.chain'_nil, by simp, by simp [h]⟩
  | cons f tl ih =>
    intro i acc res htl h
    have hform : formsAll[i]? = some f := by
      have h0 : (formsAll.drop i)[0]? = some f := by
        rw [← htl]
        exact List.getElem?_cons_zero
      rw [List.getElem?_drop] at h0
      simpa using h0
    have htl' : tl = formsAll.drop (i + 1) := by
      have : List.drop 1 (List.drop i formsAll) = List.drop (i + 1) formsAll :=
        List.drop_drop 1 i formsAll
      rw [← this, ← htl]
      rfl
    by_cases hf : f = ft
    · simp only [filingsGo, if_pos hf] at h
      cases ha : accs[i]? with
      | none => rw [ha] at h; cases h
      | some a =>
        rw [ha] at h
        cases hd : dates[i]? with
        | none => rw [hd] at h; cases h
        | some d =>
          rw [hd] at h
          cases hp : pdl[i]? with
          | none => rw [hp] at h; cases h
          | some pd =>
            rw [hp] at h
            dsimp only at h
            have hrec : mkFiling cik a d pd = recordAt cik accs dates pdl i := by
              rw [recordAt, ha, hd, hp]
              rfl
            by_cases hbreak : count ≤ (acc ++ [mkFiling cik a d pd]).length
            · rw [if_pos hbreak] at h
              injection h with h
              refine ⟨[i], by simp, ?_, ?_⟩
              · intro j hj
                rw [List.mem_singleton] at hj
                subst hj
                exact ⟨Nat.le_refl _, hf ▸ hform⟩
              · rw [← h, List.map_cons, List.map_nil, hrec]
            · rw [if_neg hbreak] at h
              obtain ⟨is, hch, hmem, hres⟩ := ih htl' h
              refine ⟨i :: is, ?_, ?_, ?_⟩
              · rw [List.chain'_cons']
                refine ⟨?_, hch⟩
                intro y hy
                have hmemy := hmem y (List.mem_of_mem_head? hy)
                omega
              · intro j hj
                rcases List.mem_cons.mp hj with hj | hj
                · subst hj
                  exact ⟨Nat.le_refl j, hf ▸ hform⟩
                · obtain ⟨hij, hjf⟩ := hmem j hj
                  exact ⟨by omega, hjf⟩
              · rw [hres, List.map_cons, ← hrec]
                simp
    · simp only [filingsGo, if_neg hf] at h
      obtain ⟨is, hch, hmem, hres⟩ := ih htl' h
      refine ⟨is, hch, ?_, hres⟩
      intro j hj
      obtain ⟨hij, hjf⟩ := hmem j hj
      exact ⟨by omega, hjf⟩

/-- C7 counterexample: with `maxCount = 0` the function still returns one
record for a matching payload — the bound `len(filings) >= count` is only
checked after a record has been appended, so the claim fails for
`maxCount = 0` (and the returned length 1 exceeds the requested 0). -/
theorem C7_counterexample :
    (get_recent_filings sampleSubmissions "0000320193".data "8-K".data 0).length = 1 := by
  decide

/-- C7 (amended): for every submissions payload and every `maxCount ≥ 1`
(the break is checked only after appending, so `maxCount = 0` still yields
one record), `get_recent_filings` returns at most `maxCount` records; and the
returned records are indexed by a strictly increasing list of positions of
the form array at which the entry equals the requested form type exactly —
so every record matches the form type case-sensitively and source order is
preserved. -/
theorem C7_filings_bounds (data : SubmissionsData) (cik ft : List Char) (count : Nat)
    (hcount : 1 ≤ count) :
    (get_recent_filings data cik ft count).length ≤ count ∧
      ∀ rf forms, data.recent = some rf → rf.form = some forms →
        ∃ is : List Nat, List.Chain' (· < ·) is ∧
          (∀ j ∈ is, forms[j]? = some ft) ∧
          get_recent_filings data cik ft count =
            is.map (recordAt cik (rf.accessionNumber.getD [])
              (rf.filingDate.getD []) (rf.primaryDocument.getD [[]])) := by
  constructor
  · simp only [get_recent_filings]
    cases hrec : data.recent with
    | none => simp
    | some rf =>
      dsimp only
      cases hform : rf.form with
      | none => simp
      | some forms =>
        cases haccs : rf.accessionNumber with
        | none => simp
        | some accs =>
          dsimp only
          cases hloop : filingsGo ft cik count accs (rf.filingDate.getD [])
              (rf.primaryDocument.getD [[]]) forms 0 [] with
          | none => simp
          | some l =>
            dsimp only
            exact filingsGo_length (by simpa using hcount) hloop
  · intro rf forms hrec hform
    simp only [get_recent_filings]
    rw [hrec]
    dsimp only
    rw [hform]
    cases haccs : rf.accessionNumber with
    | none =>
      dsimp only
      exact ⟨[], List.chain'_nil, by simp, by simp⟩
    | some accs =>
      dsimp only
      cases hloop : filingsGo ft cik count accs (rf.filingDate.getD [])
          (rf.primaryDocument.getD [[]]) forms 0 [] with
      | none => exact ⟨[], List.chain'_nil, by simp, by simp⟩
      | some l =>
        dsimp only
        obtain ⟨is, hch, hmem, hres⟩ :=
          @filingsGo_spec ft cik count accs (rf.filingDate.getD [])
            (rf.primaryDocument.getD [[]]) forms forms 0 [] l (by simp) hloop
        refine ⟨is, hch, fun j hj => (hmem j hj).2, ?_⟩
        simpa using hres

/-- C7 witness: the two-filing sample payload with `maxCount = 1`. -/
theorem C7_witness :
    (get_recent_filings sampleSubmissions "0000320193".data "8-K".data 1).length ≤ 1 ∧
      ∀ rf forms, sampleSubmissions.recent = some rf → rf.form = some forms →
        ∃ is : List Nat, List.Chain' (· < ·) is ∧
          (∀ j ∈ is, forms[j]? = some "8-K".data) ∧
          get_recent_filings sampleSubmissions "0000320193".data "8-K".data 1 =
            is.map (recordAt "0000320193".data (rf.accessionNumber.getD [])
              (rf.filingDate.getD []) (rf.primaryDocument.getD [[]])) :=
  C7_filings_bounds sampleSubmissions "0000320193".data "8-K".data 1 (by decide)

theorem pdlDefault_getElem_pos {i : Nat} (hi : 1 ≤ i) :
    ([[]] : List (List Char))[i]? = none := by
  cases i with
  | zero => omega
  | succ k => rfl

theorem filingsGo_noPdoc_match {ft cik : List Char} {count : Nat}
    {accs dates : List (List Char)} :
    ∀ {tl : List (List Char)} {i : Nat} {acc : List Filing},
      1 ≤ i → ft ∈ tl →
      filingsGo ft cik count accs dates [[]] tl i acc = none := by
  intro tl
  induction tl with
  | nil =>
    intro i acc _ hmem
    cases hmem
  | cons f tl ih =>
    intro i acc hi hmem
    by_cases hf : f = ft
    · simp only [filingsGo, if_pos hf, pdlDefault_getElem_pos hi]
      cases accs[i]? <;> cases dates[i]? <;> rfl
    · simp only [filingsGo, if_neg hf]
      exact ih (by omega) (by
        rcases List.mem_cons.mp hmem with h | h
        · exact absurd h.symm hf
        · exact h)

theorem filingsGo_noPdoc_tail {ft cik : List Char} {count : Nat}
    {accs dates : List (List Char)} :
    ∀ {tl : List (List Char)} {i : Nat} {acc : List Filing},
      1 ≤ i →
      filingsGo ft cik count accs dates [[]] tl i acc = none ∨
        filingsGo ft cik count accs dates [[]] tl i acc = some acc := by
  intro tl
  induction tl with
  | nil => intro i acc _; right; rfl
  | cons f tl ih =>
    intro i acc hi
    by_cases hf : f = ft
    · left
      simp only [filingsGo, if_pos hf, pdlDefault_getElem_pos hi]
      cases accs[i]? <;> cases dates[i]? <;> rfl
    · simp only [filingsGo, if_neg hf]
      exact ih (by omega)

/-- C10 counterexample: `primaryDocument` is absent and a form-matching
filing exists at index 1 > 0, but with `count = 1` the loop breaks right
after appending the index-0 record — before ever reading `[''][1]` — so the
function returns that one record (with empty `docUrl`) instead of the empty
sequence the claim predicts. -/
theorem C10_counterexample :
    (∃ rf, twoMatchNoPdocSubmissions.recent = some rf ∧ rf.primaryDocument = none ∧
      (rf.form.getD [])[1]? = some "8-K".data) ∧
    get_recent_filings twoMatchNoPdocSubmissions "0000320193".data "8-K".data 1 ≠ [] := by
  constructor
  · exact ⟨_, rfl, rfl, rfl⟩
  · decide

/-- C10 (amended): `get_recent_filings` validates only the `form` and
`accessionNumber` keys.  When `primaryDocument` is absent, reading the
one-element default list `[ "" ]` raises at every form-matching position
except index 0, and the `except` handler turns the raise into `[]`,
discarding anything already collected; but the raise only happens if the
loop reaches such a position, so the result is either empty or exactly one
record for a match at index 0 with empty `docUrl` (the loop can break on
`maxCount` first, as the counterexample shows).  In particular, whenever a
match exists and the first position does not match, the result is empty. -/
theorem C10_pdoc_missing (data : SubmissionsData) (rf : RecentFilings) (cik ft : List Char)
    (count : Nat) (hrec : data.recent = some rf) (hpd : rf.primaryDocument = none) :
    (get_recent_filings data cik ft count = [] ∨
      ∃ r, get_recent_filings data cik ft count = [r] ∧ r.docUrl = [] ∧
        (rf.form.getD [])[0]? = some ft) ∧
    ∀ forms, rf.form = some forms → ft ∈ forms → forms[0]? ≠ some ft →
      get_recent_filings data cik ft count = [] := by
  simp only [get_recent_filings]
  rw [hrec]
  dsimp only
  cases hform : rf.form with
  | none =>
    constructor
    · left; rfl
    · intro forms hforms
      cases hforms
  | some forms0 =>
    cases haccs : rf.accessionNumber with
    | none =>
      constructor
      · left; rfl
      · intro forms _ _ _; rfl
    | some accs =>
      dsimp only
      rw [hpd]
      simp only [Option.getD_none]
      cases forms0 with
      | nil =>
        constructor
        · left; rfl
        · intro forms hforms hmem _
          injection hforms with hforms
          rw [← hforms] at hmem
          cases hmem
      | cons f tl =>
        by_cases hf : f = ft
        · constructor
          · simp only [filingsGo, if_pos hf]
            cases ha : accs[0]? with
            | none => left; rfl
            | some a =>
              cases hd : (rf.filingDate.getD [])[0]? with
              | none => left; rfl
              | some d =>
                simp only [List.getElem?_cons_zero]
                by_cases hbr : count ≤ ([] ++ [mkFiling cik a d []]).length
                · rw [if_pos hbr]
                  right
                  refine ⟨mkFiling cik a d [], rfl, rfl, ?_⟩
                  simp [hf]
                · rw [if_neg hbr]
                  rcases filingsGo_noPdoc_tail (Nat.le_refl 1) with h | h
                  · rw [h]; left; rfl
                  · rw [h]
                    right
                    refine ⟨mkFiling cik a d [], by simp, rfl, ?_⟩
                    simp [hf]
          · intro forms hforms _ h0
            injection hforms with hforms
            rw [← hforms, List.getElem?_cons_zero, hf] at h0
            cases h0 rfl
        · constructor
          · simp only [filingsGo, if_neg hf]
            rcases filingsGo_noPdoc_tail (Nat.le_refl 1) with h | h
            · rw [h]; left; rfl
            · rw [h]; left; rfl
          · intro forms hforms hmem _
            injection hforms with hforms
            rw [← hforms] at hmem
            have hmem' : ft ∈ tl := by
              rcases List.mem_cons.mp hmem with h | h
              · exact absurd h.symm hf
              · exact h
            simp only [filingsGo, if_neg hf]
            rw [filingsGo_noPdoc_match (Nat.le_refl 1) hmem']

/-- C10 witness: the one-filing payload without `primaryDocument`, where the
single match is at index 0, so the function returns one record with empty
`docUrl` (here the dichotomy and the first-position clause are both
discharged at a concrete payload). -/
theorem C10_witness :
    (get_recent_filings noPdocSubmissions "0000320193".data "8-K".data 5 = [] ∨
      ∃ r, get_recent_filings noPdocSubmissions "0000320193".data "8-K".data 5 = [r] ∧
        r.docUrl = [] ∧
        ((RecentFilings.mk (some ["8-K".data]) (some ["0000320193-25-000001".data])
            (some ["2025-01-02".data]) none).form.getD [])[0]? = some "8-K".data) ∧
    ∀ forms, (RecentFilings.mk (some ["8-K".data]) (some ["0000320193-25-000001".data])
        (some ["2025-01-02".data]) none).form = some forms →
      "8-K".data ∈ forms → forms[0]? ≠ some "8-K".data →
      get_recent_filings noPdocSubmissions "0000320193".data "8-K".data 5 = [] :=
  C10_pdoc_missing noPdocSubmissions _ "0000320193".data "8-K".data 5 rfl rfl

/-! ### TextFetcher normalization lemmas -/

theorem hasTwoSp_cons (a : Char) (l : List Char) :
    hasTwoSp (a :: l) = true ↔
      (a = ' ' ∧ l.head? = some ' ') ∨ hasTwoSp l = true := by
  cases l with
  | nil => simp [hasTwoSp]
  | cons b rest =>
    simp [hasTwoSp]

theorem hasTwoSp_append_singleton (l : List Char) (c : Char) :
    hasTwoSp (l ++ [c]) = true ↔
      hasTwoSp l = true ∨ (l.getLast? = some ' ' ∧ c = ' ') := by
  induction l using hasTwoSp.induct with
  | case1 => simp [hasTwoSp]
  | case2 a =>
    simp only [List.cons_append, List.nil_append, hasTwoSp, Bool.or_eq_true,
      Bool.and_eq_true, decide_eq_true_eq, List.getLast?_singleton, Option.some.injEq]
    tauto
  | case3 a b rest ih =>
    have hshape : (a :: b :: rest) ++ [c] = a :: ((b :: rest) ++ [c]) := rfl
    rw [hshape]
    have hbc : ((b :: rest) ++ [c]).head? = some b := rfl
    rw [hasTwoSp_cons, hbc, ih, hasTwoSp_cons (l := b :: rest), List.head?_cons]
    rw [List.getLast?_cons_cons]
    tauto

theorem hasTwoSp_reverse (l : List Char) : hasTwoSp l.reverse = hasTwoSp l := by
  induction l with
  | nil => rfl
  | cons a t ih =>
    rw [List.reverse_cons, Bool.eq_iff_iff, hasTwoSp_append_singleton, ih,
      List.getLast?_reverse, hasTwoSp_cons]
    cases t with
    | nil => simp
    | cons b rest =>
      rw [List.head?_cons]
      tauto

theorem hasTwoSp_dropWhile {p : Char → Bool} {l : List Char} (h : hasTwoSp l = false) :
    hasTwoSp (l.dropWhile p) = false := by
  induction l using hasTwoSp.induct with
  | case1 => rfl
  | case2 a =>
    rw [List.dropWhile_cons]
    by_cases hp : p a = true
    · simp [hp, hasTwoSp]
    · simp [hp, hasTwoSp]
  | case3 a b rest ih =>
    have hbr : hasTwoSp (b :: rest) = false := by
      cases hx : hasTwoSp (b :: rest) with
      | false => rfl
      | true =>
        rw [show hasTwoSp (a :: b :: rest) = ((a = ' ' && b = ' ') || hasTwoSp (b :: rest)) from rfl, hx] at h
        simp at h
    rw [List.dropWhile_cons]
    by_cases hp : p a = true
    · simp only [hp, if_true]
      exact ih hbr
    · simp only [hp, Bool.false_eq_true, if_false]
      exact h

theorem stripL_hasTwoSp {l : List Char} (h : hasTwoSp l = false) :
    hasTwoSp (stripL l) = false := by
  unfold stripL
  rw [hasTwoSp_reverse]
  apply hasTwoSp_dropWhile
  rw [hasTwoSp_reverse]
  exact hasTwoSp_dropWhile h

theorem stripL_subset {l : List Char} : ∀ x ∈ stripL l, x ∈ l := by
  intro x hx
  unfold stripL at hx
  rw [List.mem_reverse] at hx
  have hx2 := (List.dropWhile_suffix pyIsSpace).sublist.subset hx
  rw [List.mem_reverse] at hx2
  exact (List.dropWhile_suffix pyIsSpace).sublist.subset hx2

theorem dropWhile_head_not {p : Char → Bool} {l : List Char} {c : Char}
    (h : (l.dropWhile p).head? = some c) : p c = false := by
  induction l with
  | nil => cases h
  | cons a t ih =>
    rw [List.dropWhile_cons] at h
    by_cases hp : p a = true
    · rw [if_pos hp] at h
      exact ih h
    · rw [if_neg hp] at h
      rw [List.head?_cons] at h
      injection h with h
      rw [← h]
      cases hb : p a with
      | false => rfl
      | true => exact absurd hb hp

theorem stripL_head_not_space {l : List Char} {c : Char}
    (h : (stripL l).head? = some c) : pyIsSpace c = false := by
  unfold stripL at h
  cases hz : ((l.dropWhile pyIsSpace).reverse.dropWhile pyIsSpace).reverse with
  | nil => rw [hz] at h; cases h
  | cons w ws =>
    rw [hz, List.head?_cons] at h
    injection h with h
    have hpref : ((l.dropWhile pyIsSpace).reverse.dropWhile pyIsSpace).reverse <+:
        l.dropWhile pyIsSpace :=
      List.reverse_suffix.mp (by
        rw [List.reverse_reverse]
        exact List.dropWhile_suffix pyIsSpace)
    obtain ⟨t, ht⟩ := hpref
    rw [hz] at ht
    have hhead : (l.dropWhile pyIsSpace).head? = some w := by
      rw [← ht]
      rfl
    rw [← h]
    exact dropWhile_head_not hhead

theorem stripL_getLast_not_space {l : List Char} {c : Char}
    (h : (stripL l).getLast? = some c) : pyIsSpace c = false := by
  unfold stripL at h
  rw [List.getLast?_reverse] at h
  exact dropWhile_head_not h

theorem stripL_stripL (l : List Char) : stripL (stripL l) = stripL l :=
  stripL_eq_self (fun _ h => stripL_head_not_space h) (fun _ h => stripL_getLast_not_space h)

theorem splitlinesGo_breakFree :
    ∀ (t cur : List Char), (∀ x ∈ cur, isLineBreak x = false) →
      ∀ l ∈ splitlinesGo t cur, ∀ x ∈ l, isLineBreak x = false := by
  intro t cur
  induction t, cur using splitlinesGo.induct with
  | case1 cur hemp =>
    intro _ l hl
    simp [splitlinesGo, hemp] at hl
  | case2 cur hemp =>
    intro hcur l hl
    simp only [splitlinesGo, hemp, Bool.false_eq_true, if_false, List.mem_singleton] at hl
    subst hl
    exact hcur
  | case3 c cur hbr =>
    intro hcur l hl
    simp only [splitlinesGo, hbr, if_true, List.mem_singleton] at hl
    subst hl
    exact hcur
  | case4 c cur hbr =>
    intro hcur l hl
    simp only [splitlinesGo, hbr, Bool.false_eq_true, if_false, List.mem_singleton] at hl
    subst hl
    intro x hx
    rcases List.mem_append.mp hx with hx | hx
    · exact hcur x hx
    · rw [List.mem_singleton] at hx
      subst hx
      cases hb : isLineBreak x with
      | false => rfl
      | true => exact absurd hb hbr
  | case5 a b rest cur hcond ih =>
    intro hcur l hl
    simp only [splitlinesGo, hcond, if_true, List.mem_cons] at hl
    rcases hl with hl | hl
    · subst hl; exact hcur
    · exact ih (by simp) l hl
  | case6 a b rest cur hcond hbr ih =>
    intro hcur l hl
    simp only [splitlinesGo, hcond, hbr, if_true, Bool.false_eq_true, if_false,
      List.mem_cons] at hl
    rcases hl with hl | hl
    · subst hl; exact hcur
    · exact ih (by simp) l hl
  | case7 a b rest cur hcond hbr ih =>
    intro hcur l hl
    simp only [splitlinesGo, hcond, hbr, Bool.false_eq_true, if_false] at hl
    refine ih ?_ l hl
    intro x hx
    rcases List.mem_append.mp hx with hx | hx
    · exact hcur x hx
    · rw [List.mem_singleton] at hx
      subst hx
      cases hb : isLineBreak x with
      | false => rfl
      | true => exact absurd hb hbr

theorem split2SpGo_subset :
    ∀ (l cur : List Char), ∀ part ∈ split2SpGo l cur, ∀ x ∈ part, x ∈ cur ∨ x ∈ l := by
  intro l cur
  induction l, cur using split2SpGo.induct with
  | case1 cur =>
    intro part hp x hx
    simp only [split2SpGo, List.mem_singleton] at hp
    subst hp
    exact Or.inl hx
  | case2 c cur =>
    intro part hp x hx
    simp only [split2SpGo, List.mem_singleton] at hp
    subst hp
    rcases List.mem_append.mp hx with hx | hx
    · exact Or.inl hx
    · exact Or.inr hx
  | case3 a b rest cur hcond ih =>
    intro part hp x hx
    simp only [split2SpGo, hcond, if_true, List.mem_cons] at hp
    rcases hp with hp | hp
    · subst hp; exact Or.inl hx
    · rcases ih part hp x hx with h | h
      · cases h
      · exact Or.inr (List.mem_cons_of_mem a (List.mem_cons_of_mem b h))
  | case4 a b rest cur hcond ih =>
    intro part hp x hx
    simp only [split2SpGo, hcond, Bool.false_eq_true, if_false] at hp
    rcases ih part hp x hx with h | h
    · rcases List.mem_append.mp h with h | h
      · exact Or.inl h
      · rw [List.mem_singleton] at h
        subst h
        exact Or.inr (List.mem_cons_self x _)
    · exact Or.inr (List.mem_cons_of_mem a h)

theorem split2SpGo_noTwoSp :
    ∀ (l cur : List Char), hasTwoSp cur = false →
      (cur.getLast? = some ' ' → l.head? ≠ some ' ') →
      ∀ part ∈ split2SpGo l cur, hasTwoSp part = false := by
  intro l cur
  induction l, cur using split2SpGo.induct with
  | case1 cur =>
    intro hcur _ part hp
    simp only [split2SpGo, List.mem_singleton] at hp
    subst hp
    exact hcur
  | case2 c cur =>
    intro hcur hj part hp
    simp only [split2SpGo, List.mem_singleton] at hp
    subst hp
    cases hx : hasTwoSp (cur ++ [c]) with
    | false => rfl
    | true =>
      rcases (hasTwoSp_append_singleton cur c).mp hx with h | ⟨h1, h2⟩
      · rw [h] at hcur; cases hcur
      · subst h2
        exact absurd rfl (hj h1)
  | case3 a b rest cur hcond ih =>
    intro hcur _ part hp
    simp only [split2SpGo, hcond, if_true, List.mem_cons] at hp
    rcases hp with hp | hp
    · subst hp; exact hcur
    · exact ih rfl (fun h => by cases h) part hp
  | case4 a b rest cur hcond ih =>
    intro hcur hj part hp
    simp only [split2SpGo, hcond, Bool.false_eq_true, if_false] at hp
    have hcond' : ¬(a = ' ' ∧ b = ' ') := by
      intro ⟨h1, h2⟩
      rw [h1, h2] at hcond
      simp at hcond
    refine ih ?_ ?_ part hp
    · cases hx : hasTwoSp (cur ++ [a]) with
      | false => rfl
      | true =>
        rcases (hasTwoSp_append_singleton cur a).mp hx with h | ⟨h1, h2⟩
        · rw [h] at hcur; cases hcur
        · subst h2
          exact absurd rfl (hj h1)
    · intro hlast hhead
      rw [List.getLast?_concat] at hlast
      injection hlast with hlast
      rw [List.head?_cons] at hhead
      injection hhead with hhead
      exact hcond' ⟨hlast, hhead⟩

theorem splitlinesGo_cons_nb {a b : Char} {rest cur : List Char}
    (ha : isLineBreak a = false) :
    splitlinesGo (a :: b :: rest) cur = splitlinesGo (b :: rest) (cur ++ [a]) := by
  have har : a ≠ '\r' := by
    intro h
    rw [h] at ha
    exact absurd ha (by decide)
  simp only [splitlinesGo, decide_eq_false har, Bool.false_and, Bool.false_eq_true,
    if_false, ha]

theorem splitlinesGo_cons_nl {t cur : List Char} :
    splitlinesGo ('\n' :: t) cur = cur :: splitlinesGo t [] := by
  cases t with
  | nil => simp [splitlinesGo, show isLineBreak '\n' = true from by decide]
  | cons y ys =>
    simp [splitlinesGo, show isLineBreak '\n' = true from by decide,
      show ('\n' : Char) ≠ '\r' from by decide]

theorem splitlinesGo_breakFree_eq :
    ∀ (l cur : List Char), (∀ x ∈ l, isLineBreak x = false) →
      splitlinesGo l cur = if (cur ++ l).isEmpty then [] else [cur ++ l] := by
  intro l
  induction l with
  | nil =>
    intro cur _
    simp [splitlinesGo]
  | cons a l ih =>
    intro cur hbf
    have ha : isLineBreak a = false := hbf a (List.mem_cons_self a l)
    cases l with
    | nil =>
      simp only [splitlinesGo, ha, Bool.false_eq_true, if_false]
      simp
    | cons b l2 =>
      rw [splitlinesGo_cons_nb ha, ih (cur ++ [a])
        (fun x hx => hbf x (List.mem_cons_of_mem a hx))]
      simp [List.append_assoc]

theorem splitlinesGo_append_newline :
    ∀ (l cur rest : List Char), (∀ x ∈ l, isLineBreak x = false) →
      splitlinesGo (l ++ '\n' :: rest) cur = (cur ++ l) :: splitlinesGo rest [] := by
  intro l
  induction l with
  | nil =>
    intro cur rest _
    rw [List.nil_append, splitlinesGo_cons_nl, List.append_nil]
  | cons a l ih =>
    intro cur rest hbf
    have ha : isLineBreak a = false := hbf a (List.mem_cons_self a l)
    cases hshape : l ++ '\n' :: rest with
    | nil => exact absurd hshape (List.append_ne_nil_of_right_ne_nil l (List.cons_ne_nil _ _))
    | cons y ys =>
      rw [List.cons_append, hshape, splitlinesGo_cons_nb ha, ← hshape,
        ih (cur ++ [a]) rest (fun x hx => hbf x (List.mem_cons_of_mem a hx))]
      simp [List.append_assoc]

theorem split2SpGo_noSep :
    ∀ (l cur : List Char), hasTwoSp l = false → split2SpGo l cur = [cur ++ l] := by
  intro l cur
  induction l, cur using split2SpGo.induct with
  | case1 cur => intro _; simp [split2SpGo]
  | case2 c cur => intro _; simp [split2SpGo]
  | case3 a b rest cur hcond ih =>
    intro h
    exfalso
    have : hasTwoSp (a :: b :: rest) = true := by
      simp only [hasTwoSp, Bool.or_eq_true]
      exact Or.inl hcond
    rw [this] at h
    cases h
  | case4 a b rest cur hcond ih =>
    intro h
    have hbr : hasTwoSp (b :: rest) = false := by
      cases hx : hasTwoSp (b :: rest) with
      | false => rfl
      | true =>
        rw [show hasTwoSp (a :: b :: rest) = ((a = ' ' && b = ' ') || hasTwoSp (b :: rest)) from rfl,
          hx] at h
        simp at h
    simp only [split2SpGo, hcond, Bool.false_eq_true, if_false]
    rw [ih hbr]
    simp [List.append_assoc]

theorem flatMap_congr_local {α β : Type} {l : List α} {f g : α → List β}
    (h : ∀ a ∈ l, f a = g a) : l.flatMap f = l.flatMap g := by
  induction l with
  | nil => rfl
  | cons a t ih =>
    simp only [List.flatMap_cons, h a (List.mem_cons_self a t)]
    rw [ih (fun b hb => h b (List.mem_cons_of_mem a hb))]

theorem pySplitlines_joinNL (cs : List (List Char))
    (hne : ∀ c ∈ cs, c ≠ [])
    (hbf : ∀ c ∈ cs, ∀ x ∈ c, isLineBreak x = false) :
    pySplitlines (joinNL cs) = cs := by
  induction cs with
  | nil => rfl
  | cons c cs ih =>
    cases cs with
    | nil =>
      show splitlinesGo (joinNL [c]) [] = [c]
      rw [show joinNL [c] = c from rfl,
        splitlinesGo_breakFree_eq c [] (hbf c (List.mem_cons_self c []))]
      have : c.isEmpty = false := by
        cases hc : c with
        | nil => exact absurd hc (hne c (List.mem_cons_self c []))
        | cons x xs => rfl
      simp [this]
    | cons c2 cs2 =>
      show splitlinesGo (joinNL (c :: c2 :: cs2)) [] = c :: c2 :: cs2
      rw [show joinNL (c :: c2 :: cs2) = c ++ '\n' :: joinNL (c2 :: cs2) from rfl,
        splitlinesGo_append_newline c [] (joinNL (c2 :: cs2))
          (hbf c (List.mem_cons_self c _))]
      rw [List.nil_append]
      congr 1
      exact ih (fun d hd => hne d (List.mem_cons_of_mem c hd))
        (fun d hd => hbf d (List.mem_cons_of_mem c hd))

theorem cleanChunks_props (t : List Char) :
    ∀ c ∈ cleanChunks t, c ≠ [] ∧ (∀ x ∈ c, isLineBreak x = false) ∧
      hasTwoSp c = false ∧ stripL c = c := by
  intro c hc
  unfold cleanChunks at hc
  rw [List.mem_filter] at hc
  obtain ⟨hc, hcne⟩ := hc
  rw [List.mem_map] at hc
  obtain ⟨phrase, hphrase, rfl⟩ := hc
  rw [List.mem_flatMap] at hphrase
  obtain ⟨line', hline', hph⟩ := hphrase
  rw [List.mem_map] at hline'
  obtain ⟨line, hline, hstrip⟩ := hline'
  refine ⟨?_, ?_, ?_, stripL_stripL phrase⟩
  · intro h
    rw [h] at hcne
    cases hcne
  · intro x hx
    have hx1 : x ∈ phrase := stripL_subset x hx
    have hx2 : x ∈ ([] : List Char) ∨ x ∈ line' :=
      split2SpGo_subset line' [] phrase hph x hx1
    rcases hx2 with hx2 | hx2
    · cases hx2
    · rw [← hstrip] at hx2
      have hx3 : x ∈ line := stripL_subset x hx2
      exact splitlinesGo_breakFree t [] (by simp) line hline x hx3
  · apply stripL_hasTwoSp
    exact split2SpGo_noTwoSp line' [] rfl (fun h => by cases h) phrase hph

/-- C8: the text normalization of `get_filing_text` (strip each line of
`splitlines`, split on two-space runs, strip, drop empties, rejoin with
newlines) is idempotent: applied to its own output it returns that output
unchanged, for every input string. -/
theorem C8_normalize_idempotent (t : List Char) :
    get_filing_text_clean (get_filing_text_clean t) = get_filing_text_clean t := by
  have hprops := cleanChunks_props t
  have hchunks : cleanChunks (joinNL (cleanChunks t)) = cleanChunks t := by
    set cs := cleanChunks t with hcs
    unfold cleanChunks
    rw [show pySplitlines (joinNL cs) = cs from
      pySplitlines_joinNL cs (fun c hc => (hprops c hc).1)
        (fun c hc => (hprops c hc).2.1)]
    rw [show cs.map stripL = cs from by
      calc cs.map stripL = cs.map id :=
            List.map_congr_left (fun c hc => (hprops c hc).2.2.2)
        _ = cs := List.map_id _]
    rw [show cs.flatMap pySplit2Sp = cs from by
      have hsingle : ∀ c ∈ cs, pySplit2Sp c = [c] := by
        intro c hc
        show split2SpGo c [] = [c]
        rw [split2SpGo_noSep c [] (hprops c hc).2.2.1]
        rfl
      calc cs.flatMap pySplit2Sp
          = cs.flatMap (fun c => [c]) := flatMap_congr_local hsingle
        _ = cs := by simp]
    rw [show cs.map stripL = cs from by
      calc cs.map stripL = cs.map id :=
            List.map_congr_left (fun c hc => (hprops c hc).2.2.2)
        _ = cs := List.map_id _]
    rw [List.filter_eq_self.mpr (fun c hc => by
      cases hcsh : c with
      | nil => exact absurd hcsh (hprops c hc).1
      | cons x xs => rfl)]
  show joinNL (cleanChunks (joinNL (cleanChunks t))) = joinNL (cleanChunks t)
  rw [hchunks]
